import Mathlib

/-!
# Verification of the HackTrack GitHub ingestion core

A shallow embedding, in Lean 4, of the GitHub ingestion core of the
HackTrack repository:

* `src/utils/helpers.py` — `parse_repo_from_url` (repo URL resolver);
* `src/core/github_analyzer.py` — `GitHubAnalyzer`: the commit pager
  (`_fetch_new_commits`), blob line counting (`_get_line_count`,
  `_is_binary_content`, `_is_binary`), the commit-count probe
  (`_commit_count`), language formatting (`_format_languages`) and the
  snapshot assembler (`analyze_commit_history`).

HTTP interaction is modelled by an explicit environment (`Env`): each
network-dependent primitive becomes a pure function of the environment,
and the analyzer's mutable blob cache becomes explicit state threaded
through the definitions.  Python `str` is modelled by `String` with
ASCII-level case folding; Python byte strings by `List Nat`.
-/

/-! ## Python string primitives -/

/-- The characters Python's bare `str.strip()` removes (ASCII whitespace;
the caller replaces ` ` by a space before stripping). -/
def pySpace (c : Char) : Bool :=
  c = ' ' ∨ c = '\t' ∨ c = '\n' ∨ c = '\r' ∨ c = '\x0b' ∨ c = '\x0c'

/-- Python `str.strip(chars)`: drop characters satisfying `p` from both ends. -/
def stripBoth (p : Char → Bool) (l : List Char) : List Char :=
  ((l.dropWhile p).reverse.dropWhile p).reverse

/-- Python `str.strip()` on a `String`. -/
def pyStrip (s : String) : String :=
  String.mk (stripBoth pySpace s.toList)

/-- Python `str.split(sep)` on a single-character separator, keeping empty
fields, as `list.split` does. -/
def splitChar (sep : Char) : List Char → List (List Char)
  | [] => [[]]
  | c :: rest =>
    if c = sep then [] :: splitChar sep rest
    else
      match splitChar sep rest with
      | h :: t => (c :: h) :: t
      | [] => [[c]]

/-- Python `str.split(sep, 1)`: `none` when the separator is absent,
otherwise the parts before and after its first occurrence. -/
def splitFirst (sep : Char) (l : List Char) : Option (List Char × List Char) :=
  if l.contains sep then
    some (l.takeWhile (· ≠ sep), (l.dropWhile (· ≠ sep)).drop 1)
  else none

/-- Substring test (Python's `in` on strings). -/
def hasSub (pat : List Char) : List Char → Bool
  | [] => pat.isEmpty
  | l@(_ :: rest) => pat.isPrefixOf l || hasSub pat rest

/-! ## `parse_repo_from_url` (src/utils/helpers.py lines 15–61)

The resolver pipeline: pre-strip the input, try the SSH form, then the
URL form (via `urllib.parse.urlparse`), then a regex search for an
embedded `github.com[/:]owner/repo` pattern, then a bare `owner/repo`
path.  Python's `None`-or-empty owner/repo values are both falsy in every
check the code performs, so they are modelled uniformly by `""`. -/

/-- The input normalization of `parse_repo_from_url`: replace non-breaking
spaces, `strip()`, `strip("'\"")`, `strip("<>[](){} ")`. -/
def preClean (url : String) : List Char :=
  let l0 := url.toList.map fun c => if c = ' ' then ' ' else c
  let l1 := stripBoth pySpace l0
  let l2 := stripBoth (fun c => c = '\'' ∨ c = '"') l1
  stripBoth (fun c => c ∈ ['<', '>', '[', ']', '(', ')', '{', '}', ' ']) l2

/-- `raw.split("?")[0].split("#")[0]`: drop query string and fragment. -/
def dropQueryFragment (l : List Char) : List Char :=
  (l.takeWhile (· ≠ '?')).takeWhile (· ≠ '#')

/-- The SSH attempt: `raw.split(":", 1)`, then the first two `/`-separated
segments of the path (after `lstrip("/")`).  Yields `("", "")` when the
attempt does not bind both names. -/
def sshCandidate (raw : List Char) : List Char × List Char :=
  match splitFirst ':' raw with
  | some (_, path) =>
    match splitChar '/' (path.dropWhile (· = '/')) with
    | o :: r :: _ => (o, r)
    | _ => ([], [])
  | none => ([], [])

/-- `re.match(r"^https?://", raw, re.IGNORECASE)` (ASCII case fold). -/
def hasHttpScheme (raw : List Char) : Bool :=
  "http://".toList.isPrefixOf (raw.map Char.toLower) ||
    "https://".toList.isPrefixOf (raw.map Char.toLower)

/-- The netloc / path split `urllib.parse.urlparse` performs on the
resolver's input.  The input starts with `http://` or `https://` (the
caller prepends a scheme when the scheme regex does not match) and holds
no `?` or `#` (both already stripped), so the netloc is everything
between the `://` of the first colon and the next `/`. -/
def netlocPath (u : List Char) : List Char × List Char :=
  let rest := ((u.dropWhile (· ≠ ':')).drop 3)
  (rest.takeWhile (· ≠ '/'), rest.dropWhile (· ≠ '/'))

/-- `urlparse`'s params split on the path: for schemes using params the
part after the first `;` that follows the last `/` is split off. -/
def stripParams (path : List Char) : List Char :=
  let tail := (path.reverse.takeWhile (· ≠ '/')).reverse
  if tail.contains ';' then
    path.take (path.length - tail.length) ++ tail.takeWhile (· ≠ ';')
  else path

/-- The URL attempt, on an input `urlparse` parses without raising (the
caller performs `urlparseCheck` first, mirroring the validation inside
`urlsplit`): prepend a scheme when missing, require `github.com` in the
lowercased netloc, take the first two nonempty path segments.  Yields
`("", "")` when the attempt does not bind both names. -/
def urlCandidate (raw : List Char) : List Char × List Char :=
  let u := if hasHttpScheme raw then raw else "https://".toList ++ raw
  let np := netlocPath u
  if hasSub "github.com".toList (np.1.map Char.toLower) then
    match (splitChar '/' (stripParams np.2)).filter (· ≠ []) with
    | o :: r :: _ => (o, r)
    | _ => ([], [])
  else ([], [])

/-- Characters matched by the regex class `[^/\s]` (ASCII whitespace). -/
def nonSlashSpace (c : Char) : Bool :=
  !(c == '/' || pySpace c)

/-- One backtracking attempt of `github\.com[/:]+([^/\s]+)/([^/\s]+)`
after the literal: consume `k` separator characters, then the two
groups. -/
def tryGroups (k : Nat) (rest : List Char) : Option (List Char × List Char) :=
  let after := rest.drop k
  let g1 := after.takeWhile nonSlashSpace
  if g1 = [] then none
  else
    match after.drop g1.length with
    | '/' :: tl =>
      let g2 := tl.takeWhile nonSlashSpace
      if g2 = [] then none else some (g1, g2)
    | _ => none

/-- Greedy `[/:]+`: try the longest separator run first, backtracking to
shorter runs (a `:` not consumed as a separator can open group 1). -/
def tryRuns : Nat → List Char → Option (List Char × List Char)
  | 0, _ => none
  | k + 1, rest =>
    match tryGroups (k + 1) rest with
    | some r => some r
    | none => tryRuns k rest

/-- Match `github\.com[/:]+([^/\s]+)/([^/\s]+)` anchored at the head of
`l` (ASCII-case-insensitive literal). -/
def matchGithubAt (l : List Char) : Option (List Char × List Char) :=
  if "github.com".toList.isPrefixOf (l.map Char.toLower) then
    let rest := l.drop 10
    tryRuns ((rest.takeWhile fun c => c = '/' ∨ c = ':').length) rest
  else none

/-- `re.search` for the embedded pattern: leftmost match wins. -/
def regexSearch : List Char → Option (List Char × List Char)
  | [] => none
  | c :: rest =>
    match matchGithubAt (c :: rest) with
    | some r => some r
    | none => regexSearch rest

/-- The bare attempt: a `/`-containing, space-free string is split on `/`
after `lstrip("/")` and the first two parts are taken (possibly empty). -/
def bareCandidate (raw : List Char) : Option (List Char × List Char) :=
  if raw.contains '/' ∧ ¬ raw.contains ' ' then
    match splitChar '/' (raw.dropWhile (· = '/')) with
    | o :: r :: _ => some (o, r)
    | _ => none
  else none

/-- `repo.removesuffix(".git").rstrip(".,;:)")`. -/
def cleanRepoName (r : List Char) : List Char :=
  let r1 := if ".git".toList.isSuffixOf r then r.take (r.length - 4) else r
  (r1.reverse.dropWhile (fun c => c ∈ ['.', ',', ';', ':', ')'])).reverse

/-- The ordered attempts of `parse_repo_from_url` (SSH or URL, then the
regex search, then the bare path), with Python's "overwrite only while
one of the two names is still falsy" threading. -/
def resolveAttempts (raw : List Char) : List Char × List Char :=
  let c0 := if "git@".toList.isPrefixOf raw then sshCandidate raw else urlCandidate raw
  let c1 := if c0.1 ≠ [] ∧ c0.2 ≠ [] then c0
    else
      match regexSearch raw with
      | some r => r
      | none => c0
  if c1.1 ≠ [] ∧ c1.2 ≠ [] then c1
  else
    match bareCandidate raw with
    | some r => r
    | none => c1

/-- The final step of `parse_repo_from_url`: clean the repo name when one
was bound, and succeed only when both names are nonempty. -/
def finalize (c : List Char × List Char) : Option (String × String) :=
  let repo := if c.2 ≠ [] then cleanRepoName c.2 else c.2
  if c.1 ≠ [] ∧ repo ≠ [] then some (String.mk c.1, String.mk repo) else none

/-- The bracketed host `urllib.parse.urlsplit` extracts for validation:
`netloc.partition("[")[2].partition("]")[0]`. -/
def bracketedHost (netloc : List Char) : List Char :=
  ((netloc.dropWhile (· ≠ '[')).drop 1).takeWhile (· ≠ ']')

/-- The netloc validation `urllib.parse.urlsplit` performs before
returning, on the same netloc `netlocPath` extracts: a netloc holding
one bracket without the other raises `ValueError("Invalid IPv6 URL")`;
one holding both has its bracketed host checked by the version-dependent
`_check_bracketed_host` (absent before Python 3.11, an
`ipaddress`-backed IPv6/IPvFuture validation from 3.11 on), modelled by
the explicit parameter `chk` returning the raised message when the check
fails.  `none` means `urlparse` returns normally. -/
def urlparseCheck (chk : List Char → Option String) (raw : List Char) :
    Option String :=
  let u := if hasHttpScheme raw then raw else "https://".toList ++ raw
  let netloc := (netlocPath u).1
  if (netloc.contains '[' ∧ ¬ netloc.contains ']') ∨
      (netloc.contains ']' ∧ ¬ netloc.contains '[') then
    some "Invalid IPv6 URL"
  else if netloc.contains '[' ∧ netloc.contains ']' then
    chk (bracketedHost netloc)
  else none

/-- The `_check_bracketed_host` of Python 3.9/3.10: no bracketed-host
validation, so `urlparse` raises only on unbalanced brackets. -/
def noBracketCheck : List Char → Option String :=
  fun _ => none

/-- `parse_repo_from_url` (src/utils/helpers.py): resolve free text into
`(owner, repo)`.  `Except.ok none` models returning `None` (no attempt
yields both names nonempty); `Except.error` models the uncaught
`ValueError` that `urlparse`'s netloc validation raises on the URL
attempt (the SSH branch never calls `urlparse`).  `chk` is the
version-dependent bracketed-host check (see `urlparseCheck`). -/
def parse_repo_from_url (chk : List Char → Option String) (url : String) :
    Except String (Option (String × String)) :=
  let raw0 := preClean url
  if raw0 = [] then .ok none
  else
    let raw := dropQueryFragment raw0
    if "git@".toList.isPrefixOf raw then .ok (finalize (resolveAttempts raw))
    else
      match urlparseCheck chk raw with
      | some msg => .error msg
      | none => .ok (finalize (resolveAttempts raw))

/-- `CommitEntry`: one new commit in a snapshot. -/
structure CommitEntry where
  sha : String
  message : String
  author : String
  date_utc : String
  total_lines : Nat
  total_files : Nat
deriving DecidableEq, Repr

/-- `RepoSnapshot`: the per-repository result of `analyze_commit_history`. -/
structure RepoSnapshot where
  team_key : String
  repo_url : String
  owner : String
  repo : String
  branch : String
  total_commits_at_snapshot : Nat
  languages : String
  readme_present : Bool
  snapshot_timestamp_utc : String
  commits : List CommitEntry
deriving DecidableEq, Repr

/-- One commit object of a `/commits` page, at the fields the pager
reads.  Missing or `None` JSON fields and empty strings are both falsy in
every check the code performs on them, so both are modelled by `""`. -/
structure RawCommit where
  sha : String
  message : String
  authorName : String
  authorDate : String
  committerName : String
  committerDate : String
deriving DecidableEq, Repr

/-- One entry of a recursive tree listing (`type`, `path`, `sha`). -/
structure TreeItem where
  type : String
  path : String
  sha : String
deriving DecidableEq, Repr

/-- Outcome of fetching one blob, observed at the point after the
base64 decode of `_get_line_count`: an HTTP error (non-200 status or a
request exception), a missing or empty `content` field, a base64 decode
failure, or the decoded bytes. -/
inductive BlobResp where
  | httpError
  | noContent
  | decodeError
  | ok (content : List Nat)
deriving DecidableEq, Repr

/-- The response of the 1-per-page `/commits` probe `_commit_count`
performs: a 404, or a 200 with its `Link` header and whether the JSON
body is a nonempty list (`1 if data else 0`). -/
inductive CountResp where
  | notFound
  | ok (link : String) (dataTruthy : Bool)
deriving DecidableEq, Repr

/-- The HTTP environment of one `analyze_commit_history` run: every
network-dependent primitive as a pure function.  `pages` gives the
successive `/commits?per_page=100` responses (the API yields `[]` past
the end of the list); `tree` gives a commit's recursive tree listing
(`none` when the response is empty or lacks a `"tree"` key); `blob`
gives blob fetch outcomes; `decodeUtf8` models Python's
`bytes.decode("utf-8", errors="ignore")`; `bracketedHostCheck` models
the version-dependent `_check_bracketed_host` of `urllib.parse` (see
`urlparseCheck`). -/
structure Env where
  defaultBranch : Option String
  languages : List (String × Nat)
  readme : Bool
  countResp : CountResp
  pages : List (List RawCommit)
  tree : String → Option (List TreeItem)
  blob : String → BlobResp
  decodeUtf8 : List Nat → String
  bracketedHostCheck : List Char → Option String
  timestamp : String

/-- The blob line-count cache `_blob_cache`, keyed by blob SHA.  Writes
only happen on lookup misses, so an association list with cons-on-write
models the Python dict. -/
def BlobCache : Type := List (String × Nat)

/-! ## Blob line counting (src/core/github_analyzer.py lines 125–203) -/

/-- Python `content_str.endswith('\n')`: the last character test. -/
def endsWithChar (c : Char) (s : String) : Bool :=
  s.toList.getLast? = some c

/-- The line count `_get_line_count` computes from a decoded content
string (lines 159–166): the number of newlines, plus one when the
content is nonempty and does not end with a newline. -/
def count_lines (s : String) : Nat :=
  if s = "" then 0
  else s.toList.count '\n' + (if endsWithChar '\n' s then 0 else 1)

/-- `_is_binary_content`: nonempty content with a null byte in its first
1024 bytes. -/
def is_binary_content (content : List Nat) : Bool :=
  if content = [] then false
  else (content.take 1024).contains 0

/-- `_get_line_count` (lines 125–172): consult the blob cache, else fetch
and decode the blob; binary content and successfully counted content are
cached, every failure returns 0 without writing the cache.  Returns the
count and the updated cache. -/
def get_line_count (env : Env) (cache : BlobCache) (blob_sha : String) :
    Nat × BlobCache :=
  match List.lookup blob_sha cache with
  | some n => (n, cache)
  | none =>
    match env.blob blob_sha with
    | .httpError => (0, cache)
    | .noContent => (0, cache)
    | .decodeError => (0, cache)
    | .ok content =>
      if is_binary_content content then (0, (blob_sha, 0) :: cache)
      else
        let lines := count_lines (env.decodeUtf8 content)
        (lines, (blob_sha, lines) :: cache)

/-- The extension suffix `os.path.splitext(p)[1]` returns: the part of
the basename from its last dot on, unless every character before that
dot (within the basename) is itself a dot. -/
def splitextSuffix (p : String) : String :=
  let base := (p.toList.reverse.takeWhile (· ≠ '/')).reverse
  if base.contains '.' then
    let tl := (base.reverse.takeWhile (· ≠ '.')).reverse
    if (base.take (base.length - (tl.length + 1))).any (· ≠ '.') then
      String.mk ('.' :: tl)
    else ""
  else ""

/-- The deny-list of `_is_binary` (lines 186–191). -/
def binary_extensions : List String :=
  [".png", ".jpg", ".jpeg", ".gif", ".ico", ".webp", ".bmp", ".tiff",
   ".pdf", ".zip", ".gz", ".tar", ".exe", ".dll", ".bin", ".pyc",
   ".mp3", ".mp4", ".wav", ".avi", ".ttf", ".otf", ".woff", ".woff2",
   ".ds_store", ".sqlite", ".db"]

/-- The allow-list of `_is_binary` (lines 196–199). -/
def code_extensions : List String :=
  [".py", ".js", ".ts", ".html", ".css", ".c", ".cpp", ".h", ".hpp",
   ".java", ".json", ".yaml", ".yml", ".md", ".txt", ".sh", ".bat"]

/-- `_is_binary` (lines 183–203): the lowercased extension is looked up
first in the allow-list (always text), then in the deny-list; anything
else is text. -/
def is_binary (path : String) : Bool :=
  let ext := splitextSuffix path.toLower
  if code_extensions.contains ext then false
  else binary_extensions.contains ext

/-! ## Commit pager (src/core/github_analyzer.py lines 327–394) -/

/-- `str.strip()` of a commit's `sha` field. -/
def shaOf (c : RawCommit) : String :=
  pyStrip c.sha

/-- The message normalization of `_fetch_new_commits` (line 352):
newlines replaced by spaces, then stripped. -/
def normMessage (m : String) : String :=
  pyStrip (String.mk (m.toList.map fun c => if c = '\n' then ' ' else c))

/-- The per-tree aggregation of `_fetch_new_commits` (lines 365–374):
count every blob entry, and add the line counts of entries whose path is
not extension-classified binary, threading the blob cache.  Returns
`(total_files, total_lines, cache)`. -/
def count_tree (env : Env) (cache : BlobCache) :
    List TreeItem → Nat × Nat × BlobCache
  | [] => (0, 0, cache)
  | item :: rest =>
    if item.type = "blob" then
      if is_binary item.path then
        let r := count_tree env cache rest
        (r.1 + 1, r.2.1, r.2.2)
      else
        let lc := get_line_count env cache item.sha
        let r := count_tree env lc.2 rest
        (r.1 + 1, r.2.1 + lc.1, r.2.2)
    else count_tree env cache rest

/-- Build one `CommitEntry` (lines 351–383): extract message, author
(author name, falling back to committer name), date (same fallback), and
aggregate the commit's tree when one is available. -/
def mkEntry (env : Env) (cache : BlobCache) (c : RawCommit) (sha : String) :
    CommitEntry × BlobCache :=
  let message := normMessage c.message
  let author := if c.authorName = "" then c.committerName else c.authorName
  let date_utc := if c.authorDate = "" then c.committerDate else c.authorDate
  match env.tree sha with
  | none =>
    ({ sha, message, author, date_utc, total_lines := 0, total_files := 0 }, cache)
  | some items =>
    let r := count_tree env cache items
    ({ sha, message, author, date_utc, total_lines := r.2.1, total_files := r.1 },
     r.2.2)

/-- The inner page scan of `_fetch_new_commits` (lines 342–383): walk a
page in API order, skipping commits whose stripped SHA is empty,
stopping at the first SHA in the known set.  Returns the entries built,
the threaded cache, and whether the stop flag was set. -/
def process_page (env : Env) (known : List String) (cache : BlobCache) :
    List RawCommit → List CommitEntry × BlobCache × Bool
  | [] => ([], cache, false)
  | c :: rest =>
    let sha := shaOf c
    if sha = "" then process_page env known cache rest
    else if known.contains sha then ([], cache, true)
    else
      let ec := mkEntry env cache c sha
      let r := process_page env known ec.2 rest
      (ec.1 :: r.1, r.2.1, r.2.2)

/-- The page loop of `_fetch_new_commits` (lines 336–390): walk pages
newest-first, stopping at an empty page, at page exhaustion, or when a
page scan hit a known SHA. -/
def fetch_pages (env : Env) (known : List String) (cache : BlobCache) :
    List (List RawCommit) → List CommitEntry
  | [] => []
  | pg :: pgs =>
    if pg = [] then []
    else
      let r := process_page env known cache pg
      if r.2.2 then r.1 else r.1 ++ fetch_pages env known r.2.1 pgs

/-- `_fetch_new_commits` (lines 327–394): collect new commits walking
pages newest-first, then reverse into chronological order.  The progress
callback is a pure side channel and is omitted. -/
def fetch_new_commits (env : Env) (known : List String) (cache : BlobCache) :
    List CommitEntry :=
  (fetch_pages env known cache env.pages).reverse

/-! ## Commit count (src/core/github_analyzer.py lines 210–226) -/

/-- The parts of a `Link` header: split on `","`, each part stripped. -/
def linkParts (link : String) : List (List Char) :=
  (splitChar ',' link.toList).map (stripBoth pySpace)

/-- Decimal value of a digit run. -/
def digitsToNat (l : List Char) : Nat :=
  l.foldl (fun n c => n * 10 + (c.toNat - '0'.toNat)) 0

/-- `re.search(r"[?&]page=(\d+)", part)`: the digits after the first
`?page=` or `&page=` occurrence. -/
def findPageParam : List Char → Option Nat
  | [] => none
  | c :: rest =>
    if (c = '?' ∨ c = '&') ∧ "page=".toList.isPrefixOf rest ∧
        (rest.drop 5).takeWhile Char.isDigit ≠ [] then
      some (digitsToNat ((rest.drop 5).takeWhile Char.isDigit))
    else findPageParam rest

/-- The part loop of `_commit_count` (lines 219–224): the first part
containing `rel="last"` whose `page=N` regex matches. -/
def scanParts : List (List Char) → Option Nat
  | [] => none
  | p :: ps =>
    if hasSub "rel=\"last\"".toList p then
      match findPageParam p with
      | some n => some n
      | none => scanParts ps
    else scanParts ps

/-- `_commit_count` (lines 210–226): 0 on 404; the last-page number from
the `Link` header when one is extractable; else 1 when the body is a
nonempty commit list, 0 otherwise. -/
def commit_count (r : CountResp) : Nat :=
  match r with
  | .notFound => 0
  | .ok link dataTruthy =>
    if hasSub "rel=\"last\"".toList link.toList then
      match scanParts (linkParts link) with
      | some n => n
      | none => if dataTruthy then 1 else 0
    else if dataTruthy then 1 else 0

/-! ## Language formatting (src/core/github_analyzer.py lines 396–405) -/

/-- Stable descending insertion by byte size: an element is placed before
the first element whose size does not exceed it, so equal sizes keep
their original order — the input–output behaviour of Python's stable
`sorted(..., key=lambda i: i[1], reverse=True)`. -/
def insertDesc (x : String × Nat) : List (String × Nat) → List (String × Nat)
  | [] => [x]
  | y :: ys => if y.2 > x.2 then y :: insertDesc x ys else x :: y :: ys

/-- Stable descending sort by byte size (see `insertDesc`). -/
def sortDesc : List (String × Nat) → List (String × Nat)
  | [] => []
  | x :: xs => insertDesc x (sortDesc xs)

/-- The rendered percentage of one language: the exact value
`size / total * 100` (0 when the total is zero, as the code guards),
rounded half to even as Python's `.0f` float formatting does, computed
over integers: `size * 100 / total` with the remainder deciding the
rounding direction. -/
def pctOf (size total : Nat) : Nat :=
  if total = 0 then 0
  else
    let q := size * 100 / total
    let r := size * 100 % total
    if 2 * r < total then q
    else if 2 * r > total then q + 1
    else if q % 2 = 0 then q else q + 1

/-- One `"Name (P%)"` part. -/
def renderLang (total : Nat) (p : String × Nat) : String :=
  p.1 ++ " (" ++ toString (pctOf p.2 total) ++ "%)"

/-- `_format_languages` (lines 396–405): empty map formats to `""`; else
the parts, sorted by byte size descending, comma-joined. -/
def format_languages (data : List (String × Nat)) : String :=
  if data = [] then ""
  else
    let total := (data.map Prod.snd).sum
    String.intercalate ", " ((sortDesc data).map (renderLang total))

/-! ## Snapshot assembler (src/core/github_analyzer.py lines 284–325) -/

/-- `analyze_commit_history`: resolve the URL — raising `ValueError`
(modelled as `Except.error`) with `"Invalid GitHub URL: ..."` when
resolution returns `None`, and letting an uncaught `ValueError` from
`urlparse`'s netloc validation propagate — then assemble the snapshot
from metadata, languages, README flag, total commit count and the
new-commit list.  `cache` is the analyzer instance's blob cache at
entry. -/
def analyze_commit_history (env : Env) (team_key repo_url : String)
    (known : List String) (cache : BlobCache) : Except String RepoSnapshot :=
  match parse_repo_from_url env.bracketedHostCheck repo_url with
  | .error e => .error e
  | .ok none => .error ("Invalid GitHub URL: " ++ repo_url)
  | .ok (some (owner, repo)) =>
    .ok
      { team_key, repo_url, owner, repo
        branch := env.defaultBranch.getD "main"
        total_commits_at_snapshot := commit_count env.countResp
        languages := format_languages env.languages
        readme_present := env.readme
        snapshot_timestamp_utc := env.timestamp
        commits := fetch_new_commits env known cache }

/-! ## Claim-side (specification) definitions

These follow the wording of the specification, for comparison with the
code-derived definitions above. -/

/-- The pages the spec's pager walk visits: everything before the first
empty page. -/
def pagesUntilEmpty : List (List RawCommit) → List (List RawCommit)
  | [] => []
  | p :: ps => if p = [] then [] else p :: pagesUntilEmpty ps

/-- Whether a commit's stripped SHA is outside the known-SHA set. -/
def notKnown (known : List String) (c : RawCommit) : Bool :=
  !(known.contains (shaOf c))

/-- The commits the spec says are collected: those scanned, newest-first,
before the first commit whose SHA is in the known set (or until page
exhaustion or an empty page). -/
def scannedBeforeKnown (known : List String) (pages : List (List RawCommit)) :
    List RawCommit :=
  (pagesUntilEmpty pages).flatten.takeWhile (notKnown known)

/-- The claim's reading of a scanned commit: its stripped SHA and its
message with newlines replaced by spaces and trimmed. -/
def specShaMsg (c : RawCommit) : String × String :=
  (shaOf c, normMessage c.message)

/-- A minimal concrete environment for witness instantiations. -/
def baseEnv : Env where
  defaultBranch := none
  languages := []
  readme := false
  countResp := .notFound
  pages := []
  tree := fun _ => none
  blob := fun _ => .httpError
  decodeUtf8 := fun _ => ""
  bracketedHostCheck := noBracketCheck
  timestamp := ""

/-- An environment whose every blob decodes to the two-line text `"h\nh"`. -/
def envText : Env :=
  { baseEnv with blob := fun _ => .ok [104, 10, 104], decodeUtf8 := fun _ => "h\nh" }

/-- An environment whose every blob holds a null byte (binary content). -/
def envBinary : Env :=
  { baseEnv with blob := fun _ => .ok [0, 1, 2] }

/-- A raw commit with a multi-line message. -/
def rcA : RawCommit :=
  { sha := "a1", message := "fix\nbug", authorName := "Ann",
    authorDate := "2024-01-01T00:00:00Z", committerName := "Cee",
    committerDate := "2024-01-02T00:00:00Z" }

/-- A raw commit with no author name or date (committer fallback). -/
def rcB : RawCommit :=
  { sha := "b2", message := "init", authorName := "", authorDate := "",
    committerName := "Cee", committerDate := "2024-01-02T00:00:00Z" }

/-- A raw commit whose SHA will stand in the known set. -/
def rcK : RawCommit :=
  { sha := "k9", message := "old", authorName := "Ann",
    authorDate := "2023-12-31T00:00:00Z", committerName := "",
    committerDate := "" }

/-- An environment delivering two commit pages, the second led by a
known commit. -/
def envPages : Env :=
  { baseEnv with pages := [[rcA, rcB], [rcK]] }

/-- The snapshot `analyze_commit_history` produces from `envPages` at
known set `["k9"]`. -/
def snapW : RepoSnapshot where
  team_key := "t"
  repo_url := "acme/widgets"
  owner := "acme"
  repo := "widgets"
  branch := "main"
  total_commits_at_snapshot := 0
  languages := ""
  readme_present := false
  snapshot_timestamp_utc := ""
  commits :=
    [{ sha := "b2", message := "init", author := "Cee",
       date_utc := "2024-01-02T00:00:00Z", total_lines := 0, total_files := 0 },
     { sha := "a1", message := "fix bug", author := "Ann",
       date_utc := "2024-01-01T00:00:00Z", total_lines := 0, total_files := 0 }]

/-! ## General list lemmas -/

theorem takeWhile_append_pos {α : Type} {p : α → Bool} {l₁ l₂ : List α}
    (h : ∀ a ∈ l₁, p a = true) :
    (l₁ ++ l₂).takeWhile p = l₁ ++ l₂.takeWhile p := by
  induction l₁ with
  | nil => simp
  | cons x xs ih =>
    rw [List.cons_append, List.takeWhile_cons, if_pos (h x (List.mem_cons_self x xs)),
      ih (fun a ha => h a (List.mem_cons_of_mem x ha))]
    rfl

theorem takeWhile_eq_self_of_all {α : Type} {p : α → Bool} {l : List α}
    (h : ∀ a ∈ l, p a = true) : l.takeWhile p = l := by
  induction l with
  | nil => rfl
  | cons x xs ih =>
    rw [List.takeWhile_cons, if_pos (h x (List.mem_cons_self x xs)),
      ih (fun a ha => h a (List.mem_cons_of_mem x ha))]

theorem takeWhile_append_neg {α : Type} {p : α → Bool} {l₁ l₂ : List α}
    (h : l₁.all p = false) :
    (l₁ ++ l₂).takeWhile p = l₁.takeWhile p := by
  induction l₁ with
  | nil => simp at h
  | cons x xs ih =>
    by_cases hx : p x = true
    · rw [List.all_cons, hx, Bool.true_and] at h
      rw [List.cons_append, List.takeWhile_cons, if_pos hx, List.takeWhile_cons, if_pos hx,
        ih h]
    · rw [Bool.not_eq_true] at hx
      rw [List.cons_append, List.takeWhile_cons, List.takeWhile_cons, hx]
      simp

/-! ## C5: line counting -/

/-- **C5.** For every decoded text content string, the computed line
count equals the number of newline characters plus one if the content is
non-empty and does not end with a newline, and zero for empty content;
in particular `"a\nb\nc"` yields 3, `"a\nb\nc\n"` yields 3, and `""`
yields 0. -/
theorem count_lines_spec :
    (∀ s : String, count_lines s =
      s.toList.count '\n' +
        (if s ≠ "" ∧ endsWithChar '\n' s = false then 1 else 0)) ∧
    count_lines "a\nb\nc" = 3 ∧ count_lines "a\nb\nc\n" = 3 ∧ count_lines "" = 0 := by
  refine ⟨fun s => ?_, by decide, by decide, by decide⟩
  by_cases h : s = ""
  · subst h; simp [count_lines]
  · by_cases he : endsWithChar '\n' s = true <;> simp [count_lines, h, he]

/-! ## C8: extension classification -/

/-- **C8.** The extension classifier returns text whenever the lowercased
extension is in the code/text allow-list (even if it were also in the
deny-list), returns binary exactly when the extension is in the
binary/media/archive deny-list and not in the allow-list, and defaults
to text for any other extension. -/
theorem is_binary_spec :
    ∀ path : String,
      is_binary path = true ↔
        binary_extensions.contains (splitextSuffix path.toLower) = true ∧
          code_extensions.contains (splitextSuffix path.toLower) = false := by
  intro path
  unfold is_binary
  simp
  exact and_comm

/-! ## C6: commit count from pagination metadata -/

/-- **C6.** The total commit count is derived from the 1-per-page probe:
with a `Link` header holding an extractable `rel="last"` `page=N` entry
the count is `N`; with no `rel="last"` in the header but a nonempty
commit list the count is 1; on 404 the count is 0. -/
theorem commit_count_spec :
    commit_count .notFound = 0 ∧
    (∀ (link : String) (d : Bool) (n : Nat),
      hasSub "rel=\"last\"".toList link.toList = true →
      scanParts (linkParts link) = some n → commit_count (.ok link d) = n) ∧
    (∀ link : String, hasSub "rel=\"last\"".toList link.toList = false →
      commit_count (.ok link true) = 1) := by
  refine ⟨rfl, ?_, ?_⟩
  · intro link d n h1 h2
    have hdef : commit_count (.ok link d) =
        (if hasSub "rel=\"last\"".toList link.toList = true then
          match scanParts (linkParts link) with
          | some m => m
          | none => if d = true then 1 else 0
        else if d = true then 1 else 0) := rfl
    rw [hdef, if_pos h1, h2]
  · intro link h1
    have hdef : commit_count (.ok link true) =
        (if hasSub "rel=\"last\"".toList link.toList = true then
          match scanParts (linkParts link) with
          | some m => m
          | none => if true = true then 1 else 0
        else if true = true then 1 else 0) := rfl
    rw [hdef, if_neg (by rw [Bool.not_eq_true]; exact h1)]
    rfl

/-- Witness for C6 at a realistic `Link` header and at a header-less
single-commit branch. -/
theorem commit_count_spec_witness :
    commit_count (.ok "<https://api.github.com/repositories/1/commits?per_page=1&sha=main&page=5>; rel=\"last\"" true) = 5 ∧
    commit_count (.ok "" true) = 1 :=
  ⟨commit_count_spec.2.1 _ true 5 (by decide) (by decide),
   commit_count_spec.2.2 "" (by decide)⟩

/-! ## C9, C10: blob cache behaviour -/

theorem get_line_count_hit (env : Env) (cache : BlobCache) (sha : String) (n : Nat)
    (h : List.lookup sha cache = some n) : get_line_count env cache sha = (n, cache) := by
  unfold get_line_count
  rw [h]

/-- **C9.** Once a blob's line count has been computed and stored in the
blob cache, every subsequent call with the same blob SHA returns the
identical value from the cache, with the cache unchanged and independent
of the environment (no further fetch). -/
theorem blob_cache_roundtrip (env env' : Env) (cache : BlobCache) (sha : String) (n : Nat)
    (h : List.lookup sha (get_line_count env cache sha).2 = some n) :
    (get_line_count env cache sha).1 = n ∧
    get_line_count env' (get_line_count env cache sha).2 sha =
      (n, (get_line_count env cache sha).2) := by
  rcases hc : List.lookup sha cache with _ | m
  · rcases hb : env.blob sha with _ | _ | _ | content
    case httpError | noContent | decodeError =>
      have h1 : get_line_count env cache sha = (0, cache) := by
        simp [get_line_count, hc, hb]
      have h2 : List.lookup sha cache = some n := by rw [h1] at h; exact h
      rw [hc] at h2
      exact Option.noConfusion h2
    case ok =>
      by_cases hbin : is_binary_content content = true
      · have h1 : get_line_count env cache sha = (0, (sha, 0) :: cache) := by
          simp [get_line_count, hc, hb, hbin]
        have hself : List.lookup sha ((sha, 0) :: cache) = some 0 := by
          simp [List.lookup]
        have h2 : List.lookup sha ((sha, 0) :: cache) = some n := by
          rw [h1] at h; exact h
        rw [hself] at h2
        injection h2 with h2
        subst h2
        exact ⟨by rw [h1], by rw [h1]; exact get_line_count_hit env' _ sha 0 hself⟩
      · rw [Bool.not_eq_true] at hbin
        have h1 : get_line_count env cache sha =
            (count_lines (env.decodeUtf8 content),
              (sha, count_lines (env.decodeUtf8 content)) :: cache) := by
          simp [get_line_count, hc, hb, hbin]
        have hself : List.lookup sha
            ((sha, count_lines (env.decodeUtf8 content)) :: cache) =
            some (count_lines (env.decodeUtf8 content)) := by
          simp [List.lookup]
        have h2 : List.lookup sha
            ((sha, count_lines (env.decodeUtf8 content)) :: cache) = some n := by
          rw [h1] at h; exact h
        rw [hself] at h2
        injection h2 with h2
        subst h2
        exact ⟨by rw [h1], by rw [h1]; exact get_line_count_hit env' _ sha _ hself⟩
  · have h1 : get_line_count env cache sha = (m, cache) :=
      get_line_count_hit env cache sha m hc
    have h2 : List.lookup sha cache = some n := by rw [h1] at h; exact h
    rw [hc] at h2
    injection h2 with h2
    subst h2
    exact ⟨by rw [h1], by rw [h1]; exact get_line_count_hit env' cache sha m hc⟩

/-- Witness for C9: a two-line blob is counted once, cached as 2, and a
later call under an environment whose fetches all fail still returns 2
with the cache unchanged. -/
theorem blob_cache_roundtrip_witness :
    (get_line_count envText [] "s").1 = 2 ∧
    get_line_count baseEnv (get_line_count envText [] "s").2 "s" =
      (2, (get_line_count envText [] "s").2) :=
  blob_cache_roundtrip envText baseEnv [] "s" 2 (by decide)

/-- **C10.** A blob whose decoded content has a null byte in its first
1024 bytes is cached as 0 lines (so later references stay 0 with no
refetch), whereas a non-200 response, empty content field, or decode
failure returns 0 without writing the cache. -/
theorem blob_cache_asymmetry (env : Env) (cache : BlobCache) (sha : String)
    (h : List.lookup sha cache = none) :
    (∀ b, env.blob sha = .ok b → is_binary_content b = true →
      get_line_count env cache sha = (0, (sha, 0) :: cache) ∧
      ∀ env' : Env, get_line_count env' ((sha, 0) :: cache) sha =
        (0, (sha, 0) :: cache)) ∧
    ((env.blob sha = .httpError ∨ env.blob sha = .noContent ∨
        env.blob sha = .decodeError) →
      get_line_count env cache sha = (0, cache)) := by
  constructor
  · intro b hb hbin
    refine ⟨by simp [get_line_count, h, hb, hbin], fun env' => ?_⟩
    exact get_line_count_hit env' _ sha 0 (by simp [List.lookup])
  · rintro (hb | hb | hb) <;> simp [get_line_count, h, hb]

/-- Witness for C10: a null-byte blob is cached as 0; a failed fetch
leaves the cache empty. -/
theorem blob_cache_asymmetry_witness :
    get_line_count envBinary [] "s" = (0, [("s", 0)]) ∧
    get_line_count baseEnv [] "s" = (0, []) :=
  ⟨((blob_cache_asymmetry envBinary [] "s" (by decide)).1 [0, 1, 2]
      (by decide) (by decide)).1,
   (blob_cache_asymmetry baseEnv [] "s" (by decide)).2 (Or.inl (by decide))⟩

/-! ## C7: language formatting -/

theorem insertDesc_perm (x : String × Nat) (l : List (String × Nat)) :
    (insertDesc x l).Perm (x :: l) := by
  induction l with
  | nil => exact List.Perm.refl _
  | cons y ys ih =>
    unfold insertDesc
    by_cases h : y.2 > x.2
    · rw [if_pos h]
      exact (ih.cons y).trans (List.Perm.swap x y ys)
    · rw [if_neg h]

theorem mem_insertDesc {x y : String × Nat} {l : List (String × Nat)}
    (h : y ∈ insertDesc x l) : y = x ∨ y ∈ l := by
  have := (insertDesc_perm x l).mem_iff.mp h
  simpa using this

theorem sortDesc_perm (l : List (String × Nat)) : (sortDesc l).Perm l := by
  induction l with
  | nil => exact List.Perm.refl _
  | cons x xs ih => exact (insertDesc_perm x (sortDesc xs)).trans (ih.cons x)

theorem insertDesc_sorted {x : String × Nat} {l : List (String × Nat)}
    (h : l.Sorted (fun a b => b.2 ≤ a.2)) :
    (insertDesc x l).Sorted (fun a b => b.2 ≤ a.2) := by
  induction l with
  | nil => simp [insertDesc]
  | cons y ys ih =>
    rw [List.sorted_cons] at h
    obtain ⟨hy, hys⟩ := h
    unfold insertDesc
    by_cases hcmp : y.2 > x.2
    · rw [if_pos hcmp, List.sorted_cons]
      refine ⟨fun b hb => ?_, ih hys⟩
      rcases mem_insertDesc hb with rfl | hb'
      · exact le_of_lt hcmp
      · exact hy b hb'
    · rw [if_neg hcmp, List.sorted_cons]
      refine ⟨fun b hb => ?_, List.sorted_cons.mpr ⟨hy, hys⟩⟩
      rcases List.mem_cons.mp hb with rfl | hb'
      · exact Nat.le_of_not_lt hcmp
      · exact le_trans (hy b hb') (Nat.le_of_not_lt hcmp)

theorem sortDesc_sorted (l : List (String × Nat)) :
    (sortDesc l).Sorted (fun a b => b.2 ≤ a.2) := by
  induction l with
  | nil => simp [sortDesc]
  | cons x xs ih => exact insertDesc_sorted ih

/-- **C7.** The formatted language string lists each language as
`"Name (P%)"`, sorted by byte size descending and comma-joined, with the
percentage computed against the total byte count; in particular
`{"Python": 300, "JavaScript": 100}` formats as
`"Python (75%), JavaScript (25%)"` and the empty map formats as `""`. -/
theorem format_languages_spec :
    format_languages [("Python", 300), ("JavaScript", 100)] =
      "Python (75%), JavaScript (25%)" ∧
    format_languages [] = "" ∧
    ∀ data : List (String × Nat),
      (sortDesc data).Perm data ∧
      ((sortDesc data).map Prod.snd).Sorted (· ≥ ·) ∧
      format_languages data =
        (if data = [] then ""
         else String.intercalate ", "
           ((sortDesc data).map (renderLang ((data.map Prod.snd).sum)))) := by
  refine ⟨by decide, rfl, fun data => ⟨sortDesc_perm data, ?_, rfl⟩⟩
  rw [List.Sorted, List.pairwise_map]
  exact sortDesc_sorted data

/-! ## C1, C2: the commit pager -/

theorem mkEntry_sha_message (env : Env) (cache : BlobCache) (c : RawCommit)
    (sha : String) :
    (mkEntry env cache c sha).1.sha = sha ∧
    (mkEntry env cache c sha).1.message = normMessage c.message := by
  unfold mkEntry
  cases env.tree sha <;> exact ⟨rfl, rfl⟩

theorem process_page_spec (env : Env) (known : List String) (p : List RawCommit) :
    ∀ cache : BlobCache, (∀ c ∈ p, shaOf c ≠ "") →
      (process_page env known cache p).1.map (fun e => (e.sha, e.message)) =
          (p.takeWhile (notKnown known)).map specShaMsg ∧
        (process_page env known cache p).2.2 = !(p.all (notKnown known)) := by
  induction p with
  | nil => exact fun cache _ => ⟨rfl, rfl⟩
  | cons c rest ih =>
    intro cache h
    have hsha : shaOf c ≠ "" := h c (List.mem_cons_self c rest)
    have hrest : ∀ a ∈ rest, shaOf a ≠ "" :=
      fun a ha => h a (List.mem_cons_of_mem c ha)
    by_cases hk : shaOf c ∈ known
    · have hn : notKnown known c = false := by simp [notKnown, hk]
      refine ⟨?_, ?_⟩ <;> simp [process_page, hsha, hk, hn, List.takeWhile_cons]
    · have hn : notKnown known c = true := by simp [notKnown, hk]
      have ihh := ih (mkEntry env cache c (shaOf c)).2 hrest
      have hm := mkEntry_sha_message env cache c (shaOf c)
      refine ⟨?_, ?_⟩
      · simp [process_page, hsha, hk, hn, List.takeWhile_cons, ihh.1, specShaMsg,
          hm.1, hm.2]
      · simp [process_page, hsha, hk, hn, ihh.2]

theorem fetch_pages_spec (env : Env) (known : List String)
    (pages : List (List RawCommit)) :
    ∀ cache : BlobCache, (∀ c ∈ pages.flatten, shaOf c ≠ "") →
      (fetch_pages env known cache pages).map (fun e => (e.sha, e.message)) =
        ((pagesUntilEmpty pages).flatten.takeWhile (notKnown known)).map specShaMsg := by
  induction pages with
  | nil => exact fun cache _ => rfl
  | cons pg pgs ih =>
    intro cache h
    by_cases hpg : pg = []
    · subst hpg
      simp [fetch_pages, pagesUntilEmpty]
    · have hp : ∀ c ∈ pg, shaOf c ≠ "" := fun c hc =>
        h c (List.mem_flatten.mpr ⟨pg, List.mem_cons_self pg pgs, hc⟩)
      have hps := process_page_spec env known pg cache hp
      have hflat : (pagesUntilEmpty (pg :: pgs)).flatten =
          pg ++ (pagesUntilEmpty pgs).flatten := by
        simp [pagesUntilEmpty, hpg]
    -- split on whether the whole page is unknown
      by_cases hall : pg.all (notKnown known) = true
      · have hstop : (process_page env known cache pg).2.2 = false := by
          rw [hps.2, hall]; rfl
        have hfp : fetch_pages env known cache (pg :: pgs) =
            (process_page env known cache pg).1 ++
              fetch_pages env known (process_page env known cache pg).2.1 pgs := by
          simp [fetch_pages, hpg, hstop]
        rw [hfp, List.map_append, hps.1, hflat,
          takeWhile_append_pos (fun a ha => List.all_eq_true.mp hall a ha),
          List.map_append,
          takeWhile_eq_self_of_all (fun a ha => List.all_eq_true.mp hall a ha)]
        congr 1
        exact ih _ (fun c hc => h c (by
          rw [List.flatten_cons]
          exact List.mem_append_right pg hc))
      · rw [Bool.not_eq_true] at hall
        have hstop : (process_page env known cache pg).2.2 = true := by
          rw [hps.2, hall]; rfl
        have hfp : fetch_pages env known cache (pg :: pgs) =
            (process_page env known cache pg).1 := by
          simp [fetch_pages, hpg, hstop]
        rw [hfp, hps.1, hflat, takeWhile_append_neg hall]

/-- **C1.** For every known-SHA set and every sequence of commit pages
delivered newest-first (each commit carrying a nonempty stripped SHA,
as the GitHub API guarantees), the pager returns exactly the commits
scanned before the first commit whose SHA is in the known set (or before
page exhaustion, or before an empty page), reversed so the returned list
is oldest-first, each entry's message having newlines replaced by spaces
and trimmed. -/
theorem fetch_new_commits_spec (env : Env) (known : List String) (cache : BlobCache)
    (h : ∀ c ∈ env.pages.flatten, shaOf c ≠ "") :
    (fetch_new_commits env known cache).map (fun e => (e.sha, e.message)) =
      ((scannedBeforeKnown known env.pages).map specShaMsg).reverse := by
  unfold fetch_new_commits scannedBeforeKnown
  rw [List.map_reverse, fetch_pages_spec env known env.pages cache h]

/-- Witness for C1: two pages, the second led by a known SHA; the result
is the first page's commits, oldest first. -/
theorem fetch_new_commits_spec_witness :
    (fetch_new_commits envPages ["k9"] []).map (fun e => (e.sha, e.message)) =
      ((scannedBeforeKnown ["k9"] envPages.pages).map specShaMsg).reverse :=
  fetch_new_commits_spec envPages ["k9"] [] (by decide)

theorem process_page_all_not_known (env : Env) (known : List String)
    (p : List RawCommit) :
    ∀ cache : BlobCache,
      ((process_page env known cache p).1.all fun e => !(known.contains e.sha)) =
        true := by
  induction p with
  | nil => exact fun _ => rfl
  | cons c rest ih =>
    intro cache
    by_cases hsha : shaOf c = ""
    · simpa [process_page, hsha] using ih cache
    · by_cases hk : shaOf c ∈ known
      · simp [process_page, hsha, hk]
      · have hm := (mkEntry_sha_message env cache c (shaOf c)).1
        have ihh := ih (mkEntry env cache c (shaOf c)).2
        simp [process_page, hsha, hk, List.all_cons, hm] at ihh ⊢
        exact ihh

theorem fetch_pages_all_not_known (env : Env) (known : List String)
    (pages : List (List RawCommit)) :
    ∀ cache : BlobCache,
      ((fetch_pages env known cache pages).all fun e => !(known.contains e.sha)) =
        true := by
  induction pages with
  | nil => exact fun _ => rfl
  | cons pg pgs ih =>
    intro cache
    by_cases hpg : pg = []
    · simp [fetch_pages, hpg]
    · by_cases hstop : (process_page env known cache pg).2.2 = true
      · simpa [fetch_pages, hpg, hstop] using
          process_page_all_not_known env known pg cache
      · rw [Bool.not_eq_true] at hstop
        have h1 := process_page_all_not_known env known pg cache
        have h2 := ih (process_page env known cache pg).2.1
        have hfp : fetch_pages env known cache (pg :: pgs) =
            (process_page env known cache pg).1 ++
              fetch_pages env known (process_page env known cache pg).2.1 pgs := by
          simp [fetch_pages, hpg, hstop]
        rw [hfp, List.all_append, h1, h2]
        rfl

theorem fetch_new_commits_all_not_known (env : Env) (known : List String)
    (cache : BlobCache) :
    ((fetch_new_commits env known cache).all fun e => !(known.contains e.sha)) =
      true := by
  unfold fetch_new_commits
  rw [List.all_reverse]
  exact fetch_pages_all_not_known env known env.pages cache

/-- **C2.** No commit entry in the list the pager returns — and hence in
`RepoSnapshot.commits` — has a SHA that is a member of the
caller-supplied known-SHA set, at any page depth. -/
theorem snapshot_commits_not_known (env : Env) (team_key repo_url : String)
    (known : List String) (cache : BlobCache) (snap : RepoSnapshot)
    (h : analyze_commit_history env team_key repo_url known cache = .ok snap) :
    (snap.commits.all fun e => !(known.contains e.sha)) = true := by
  unfold analyze_commit_history at h
  rcases hp : parse_repo_from_url env.bracketedHostCheck repo_url with e | pr
  · rw [hp] at h
    exact Except.noConfusion h
  · rcases pr with _ | pr
    · rw [hp] at h
      exact Except.noConfusion h
    · rcases pr with ⟨o, r⟩
      rw [hp] at h
      injection h with h
      subst h
      exact fetch_new_commits_all_not_known env known cache

/-- Witness for C2: the snapshot produced over `envPages` with known set
`["k9"]` contains no known SHA. -/
theorem snapshot_commits_not_known_witness :
    (snapW.commits.all fun e => !((["k9"] : List String).contains e.sha)) = true :=
  snapshot_commits_not_known envPages "t" "acme/widgets" ["k9"] [] snapW rfl

/-! ## C4: equivalent URL forms -/

/-- **C4.** The resolver extracts the same `(owner, repo)` pair from the
HTTPS-with-`.git`, SSH, and bare forms of the same repository, with the
trailing `.git` suffix stripped from the repo name. -/
theorem resolver_url_forms :
    ∀ chk : List Char → Option String,
      parse_repo_from_url chk "https://github.com/acme/widgets.git" =
        .ok (some ("acme", "widgets")) ∧
      parse_repo_from_url chk "git@github.com:acme/widgets.git" =
        .ok (some ("acme", "widgets")) ∧
      parse_repo_from_url chk "acme/widgets" = .ok (some ("acme", "widgets")) :=
  fun _ => ⟨rfl, rfl, rfl⟩

/-! ## C3: malformed inputs -/

